import Mathlib

/-!
Verification development for the MCP tool-server client of nanotalon
(src/agent/mcp/mcp.go).  The subsystem under study: the hand-rolled
string helpers, manager tool-name routing, transport selection at
connect time, per-session request-id allocation and response
correlation, and manager-level connection fan-out plus tool
aggregation.

Modelling conventions:
* Go byte strings are lists of symbols (`GoStr`); indexing and slicing
  translate to `List.take` / `List.drop`.
* Go `int` request ids are `Int` with 64-bit two's-complement wrap
  (`wrap64`) applied where the counter is incremented.
* The per-session lock serialises every touch of the pending-request
  map, so the concurrent system is modelled as a sequence of atomic
  actions on the map.
* Opaque JSON documents (tool input schemas, raw response bodies) are
  modelled by identifiers; only the structure the code inspects (the
  `id` field of an inbound payload) is represented.
-/

namespace NanotalonMCP

/-- Go strings, modelled as lists of symbols. -/
abbrev GoStr := List Char

/-- Embeds the helper `hasPrefix` (mcp.go:645-647):
`len(s) >= len(prefix) && s[:len(prefix)] == prefix`. -/
def hasPrefixGo (s p : GoStr) : Bool :=
  decide (p.length ≤ s.length) && (s.take p.length == p)

/-- Embeds the helper `indexOf` (mcp.go:629-643): scan the positions
`0 .. len s - len sub` in order and return the first where every symbol
of `sub` matches, else `-1`.  The inner byte loop at a position `i`
(which the outer bound keeps in range) is `List.isPrefixOf sub (s.drop i)`. -/
def indexOf (s sub : GoStr) : Int :=
  match (List.range (s.length + 1 - sub.length)).find?
      (fun i => List.isPrefixOf sub (s.drop i)) with
  | some i => (i : Int)
  | none => -1

/-- First-match scan, used as a common normal form when reasoning about
`indexOf` and `strIndex`. -/
def indexOfAux (sub : GoStr) : GoStr → Option Nat
  | [] => if sub.isEmpty then some 0 else none
  | c :: t =>
      if List.isPrefixOf sub (c :: t) then some 0
      else (indexOfAux sub t).map (· + 1)

/-- Embeds the helper `splitN`'s loop (mcp.go:614-626), recursing on the
remaining iteration count `n - 1`; working on the suffix starting at
`start` is expressed by passing the suffix itself. -/
def splitNGo (sep : GoStr) : Nat → GoStr → List GoStr
  | 0, rest => [rest]
  | k + 1, rest =>
      match indexOf rest sep with
      | Int.ofNat pos => rest.take pos :: splitNGo sep k (rest.drop (pos + sep.length))
      | Int.negSucc _ => [rest]

/-- Embeds the helper `splitN` (mcp.go:606-627) for non-negative `n`. -/
def splitN (s sep : GoStr) (n : Nat) : List GoStr :=
  if n = 0 then [] else splitNGo sep (n - 1) s

/-- Modelled from the Go standard library specification of
`strings.HasPrefix`: tests whether `s` begins with `p`. -/
def strStartsWith (s p : GoStr) : Bool :=
  List.isPrefixOf p s

/-- Modelled from the Go standard library specification of
`strings.Index`: the index of the first instance of `sub` in `s`,
or `-1` if absent. -/
def strIndex (s sub : GoStr) : Int :=
  match (List.range (s.length + 1)).find?
      (fun i => List.isPrefixOf sub (s.drop i)) with
  | some i => (i : Int)
  | none => -1

/-- Modelled from the Go standard library specification of
`strings.SplitN` at count 2 with a non-empty separator: split around the
first instance of the separator. -/
def strSplitN2 (s sep : GoStr) : List GoStr :=
  match strIndex s sep with
  | Int.ofNat pos => [s.take pos, s.drop (pos + sep.length)]
  | Int.negSucc _ => [s]

theorem isPrefixOf_nil_iff (sub : GoStr) :
    List.isPrefixOf sub ([] : GoStr) = sub.isEmpty := by
  cases sub <;> simp [List.isPrefixOf, List.isEmpty]

theorem isPrefixOf_false_of_length {sub s : GoStr} (h : s.length < sub.length) :
    List.isPrefixOf sub s = false := by
  cases hp : List.isPrefixOf sub s
  · rfl
  · exfalso
    have := (List.isPrefixOf_iff_prefix.mp hp).length_le
    omega

theorem indexOfAux_eq_find (sub : GoStr) : ∀ s : GoStr,
    indexOfAux sub s =
      (List.range (s.length + 1)).find? (fun i => List.isPrefixOf sub (s.drop i))
  | [] => by
      simp [indexOfAux, List.range_succ_eq_map, isPrefixOf_nil_iff]
  | c :: t => by
      have ih := indexOfAux_eq_find sub t
      rw [indexOfAux, List.length_cons, List.range_succ_eq_map, List.find?_cons]
      cases hp : List.isPrefixOf sub (c :: t) with
      | true => simp [hp]
      | false =>
          simp only [List.drop_zero, hp, cond_false]
          rw [List.find?_map]
          have hcomp : ((fun i => List.isPrefixOf sub (List.drop i (c :: t))) ∘ Nat.succ)
              = (fun i => List.isPrefixOf sub (List.drop i t)) := by
            funext i
            simp [Function.comp, List.drop_succ_cons]
          rw [hcomp, ← ih]
          cases indexOfAux sub t <;> simp

theorem find?_append_none_right {α : Type} {p : α → Bool} (l₁ l₂ : List α)
    (h : ∀ a ∈ l₂, p a = false) :
    List.find? p (l₁ ++ l₂) = List.find? p l₁ := by
  induction l₁ with
  | nil =>
      simp only [List.nil_append, List.find?_nil]
      exact List.find?_eq_none.mpr (fun a ha => by simp [h a ha])
  | cons a l ih =>
      rw [List.cons_append, List.find?_cons, List.find?_cons]
      cases p a <;> simp [ih]

theorem find?_range_bound (s sub : GoStr) :
    (List.range (s.length + 1 - sub.length)).find?
        (fun i => List.isPrefixOf sub (s.drop i)) =
      (List.range (s.length + 1)).find?
        (fun i => List.isPrefixOf sub (s.drop i)) := by
  rcases le_or_lt sub.length s.length with hle | hlt
  · conv_rhs =>
      rw [show s.length + 1 = (s.length + 1 - sub.length) + sub.length from by omega,
        List.range_add]
    rw [find?_append_none_right]
    intro a ha
    simp only [List.mem_map, List.mem_range] at ha
    obtain ⟨i, _, rfl⟩ := ha
    apply isPrefixOf_false_of_length
    simp only [List.length_drop]
    omega
  · have h1 : s.length + 1 - sub.length = 0 := by omega
    rw [h1]
    have h2 : (List.range (s.length + 1)).find?
        (fun i => List.isPrefixOf sub (s.drop i)) = none := by
      apply List.find?_eq_none.mpr
      intro i hi
      simp only [Bool.not_eq_true]
      apply isPrefixOf_false_of_length
      simp only [List.length_drop]
      omega
    rw [h2]
    rfl

theorem indexOf_eq_strIndex (s sub : GoStr) : indexOf s sub = strIndex s sub := by
  unfold indexOf strIndex
  rw [find?_range_bound]

theorem splitN_two_eq_strSplitN2 (s sep : GoStr) :
    splitN s sep 2 = strSplitN2 s sep := by
  show splitNGo sep 1 s = strSplitN2 s sep
  rw [splitNGo, indexOf_eq_strIndex, strSplitN2]
  cases strIndex s sep with
  | ofNat pos => rfl
  | negSucc k => rfl

theorem hasPrefixGo_eq_strStartsWith (s p : GoStr) :
    hasPrefixGo s p = strStartsWith s p := by
  unfold hasPrefixGo strStartsWith
  rw [Bool.eq_iff_iff]
  simp only [Bool.and_eq_true, decide_eq_true_eq, beq_iff_eq,
    List.isPrefixOf_iff_prefix]
  constructor
  · rintro ⟨hlen, htake⟩
    exact List.prefix_iff_eq_take.mpr htake.symm
  · intro hp
    exact ⟨hp.length_le, (List.prefix_iff_eq_take.mp hp).symm⟩

/-- C10: the hand-rolled string helpers match the standard-library
functions they replace on the manager's inputs: `hasPrefix` agrees with
`strings.HasPrefix` everywhere, `indexOf` agrees with `strings.Index`
everywhere, and for every non-empty separator `splitN s sep 2` agrees
with `strings.SplitN s sep 2` (split around the first instance of the
separator, or `[s]` when absent). -/
theorem string_helpers_match_stdlib :
    (∀ s p : GoStr, hasPrefixGo s p = strStartsWith s p)
    ∧ (∀ s sub : GoStr, indexOf s sub = strIndex s sub)
    ∧ (∀ s sep : GoStr, sep ≠ [] → splitN s sep 2 = strSplitN2 s sep) :=
  ⟨hasPrefixGo_eq_strStartsWith, indexOf_eq_strIndex,
    fun s sep _ => splitN_two_eq_strSplitN2 s sep⟩

/-- Witness for C10 at concrete inputs. -/
theorem string_helpers_match_stdlib_witness :
    ("_".toList : GoStr) ≠ []
    ∧ splitN "alpha_search".toList "_".toList 2 =
        strSplitN2 "alpha_search".toList "_".toList :=
  ⟨by decide, string_helpers_match_stdlib.2.2 _ _ (by decide)⟩

theorem indexOf_eq_aux (s sub : GoStr) :
    indexOf s sub =
      (match indexOfAux sub s with
       | some i => (i : Int)
       | none => -1) := by
  unfold indexOf
  rw [find?_range_bound, ← indexOfAux_eq_find]

theorem indexOfAux_singleton_append {u : Char} {a : GoStr} (b : GoStr) (h : u ∉ a) :
    indexOfAux [u] (a ++ u :: b) = some a.length := by
  induction a with
  | nil => simp [indexOfAux, List.isPrefixOf]
  | cons c a' ih =>
      have hne : (u == c) = false := by
        simp only [beq_eq_false_iff_ne, ne_eq]
        intro he
        exact h (he ▸ List.mem_cons_self c a')
      have h' : u ∉ a' := fun hm => h (List.mem_cons_of_mem c hm)
      simp [indexOfAux, List.isPrefixOf, hne, ih h']

theorem indexOfAux_singleton_none {u : Char} : ∀ {r : GoStr}, u ∉ r →
    indexOfAux [u] r = none
  | [], _ => by simp [indexOfAux]
  | c :: t, h => by
      have hne : (u == c) = false := by
        simp only [beq_eq_false_iff_ne, ne_eq]
        intro he
        exact h (he ▸ List.mem_cons_self c t)
      have h' : u ∉ t := fun hm => h (List.mem_cons_of_mem c hm)
      simp [indexOfAux, List.isPrefixOf, hne, indexOfAux_singleton_none h']

theorem indexOf_singleton_append {u : Char} {a : GoStr} (b : GoStr) (h : u ∉ a) :
    indexOf (a ++ u :: b) [u] = (a.length : Int) := by
  rw [indexOf_eq_aux, indexOfAux_singleton_append b h]

theorem indexOf_singleton_not_mem {u : Char} {r : GoStr} (h : u ∉ r) :
    indexOf r [u] = -1 := by
  rw [indexOf_eq_aux, indexOfAux_singleton_none h]

theorem splitN_two_of_no_sep {r sep : GoStr} (h : indexOf r sep = -1) :
    splitN r sep 2 = [r] := by
  show splitNGo sep 1 r = [r]
  rw [splitNGo, h]
  rfl

theorem splitN_two_of_sep {r sep : GoStr} {pos : Nat}
    (h : indexOf r sep = (pos : Int)) :
    splitN r sep 2 = [r.take pos, r.drop (pos + sep.length)] := by
  show splitNGo sep 1 r = [r.take pos, r.drop (pos + sep.length)]
  rw [splitNGo, h]
  rfl

/-- Outcome of the manager's tool-name parsing and session lookup in
MCPServerManager.CallTool (mcp.go:544-571): either a NotFoundError, or
the delegation target (server name, original tool name). -/
inductive RouteResult
  | notFound
  | routed (srv tool : GoStr)
deriving DecidableEq

/-- Embeds the name-routing logic of MCPServerManager.CallTool
(mcp.go:550-567): reject names shorter than 5 symbols or without the
`mcp_` leading marker, strip the first 4 symbols, split the remainder
once at the first underscore, and look the server name up among the
manager's server keys.  Delegation to the session (line 570) is
represented by the `routed` result carrying the original tool name. -/
def routeToolCall (serverNames : List GoStr) (fullToolName : GoStr) : RouteResult :=
  if fullToolName.length < 5 || !(hasPrefixGo fullToolName "mcp_".toList) then
    RouteResult.notFound
  else
    let remaining := fullToolName.drop 4
    let parts := splitN remaining "_".toList 2
    if parts.length < 2 then RouteResult.notFound
    else
      let srv := parts.getD 0 []
      let tool := parts.getD 1 []
      if serverNames.contains srv then RouteResult.routed srv tool
      else RouteResult.notFound

theorem route_no_marker (names : List GoStr) (s : GoStr)
    (h : hasPrefixGo s "mcp_".toList = false) :
    routeToolCall names s = RouteResult.notFound := by
  unfold routeToolCall
  rw [h]
  simp

theorem route_no_separator (names : List GoStr) (s : GoStr)
    (h : indexOf (s.drop 4) "_".toList = -1) :
    routeToolCall names s = RouteResult.notFound := by
  unfold routeToolCall
  rcases hg : (s.length < 5 || !(hasPrefixGo s "mcp_".toList)) with _ | _
  · simp only [Bool.false_eq_true, if_false]
    rw [splitN_two_of_no_sep h]
    simp
  · simp

theorem route_structured (names : List GoStr) (srv tool : GoStr)
    (h : ('_' : Char) ∉ srv) :
    routeToolCall names ("mcp_".toList ++ srv ++ '_' :: tool) =
      if names.contains srv then RouteResult.routed srv tool
      else RouteResult.notFound := by
  have hfull : ("mcp_".toList ++ srv ++ '_' :: tool).length =
      5 + srv.length + tool.length := by
    simp [List.length_append]
    omega
  have hpre : hasPrefixGo ("mcp_".toList ++ srv ++ '_' :: tool) "mcp_".toList = true := by
    unfold hasPrefixGo
    have h4 : ("mcp_".toList : GoStr).length = 4 := by decide
    rw [Bool.and_eq_true, decide_eq_true_eq]
    constructor
    · rw [hfull, h4]; omega
    · rw [show ("mcp_".toList ++ srv ++ '_' :: tool).take ("mcp_".toList : GoStr).length
            = "mcp_".toList from by
          rw [List.append_assoc, List.take_left]]
      exact beq_self_eq_true _
  have hdrop : ("mcp_".toList ++ srv ++ '_' :: tool).drop 4 = srv ++ '_' :: tool := by
    rw [show (4 : Nat) = ("mcp_".toList : GoStr).length from by decide,
      List.append_assoc, List.drop_left]
  have hidx : indexOf ((srv ++ '_' :: tool) : GoStr) "_".toList = (srv.length : Int) := by
    exact indexOf_singleton_append tool h
  have hsplit : splitN (srv ++ '_' :: tool) "_".toList 2 = [srv, tool] := by
    rw [splitN_two_of_sep hidx]
    congr 1
    · exact List.take_left srv _
    · rw [show ((srv ++ '_' :: tool) : GoStr) = (srv ++ ['_']) ++ tool from by
          rw [List.append_assoc]; rfl]
      congr 1
      rw [show srv.length + ("_".toList : GoStr).length = (srv ++ ['_']).length from by
          simp]
      rw [List.drop_left]
  unfold routeToolCall
  rw [hpre]
  simp only [hfull, hdrop, hsplit]
  have hlen : ¬ (5 + srv.length + tool.length < 5) := by omega
  simp [hlen]

/-- C4: Manager.CallTool strips the fixed `mcp_` marker, splits the
remainder once at the next underscore into (serverName, originalToolName)
and delegates with the original tool name; a name without the marker,
without a further separator after it, or naming a server with no session
fails with NotFoundError.  In particular `mcp_alpha_search` routes to
server `alpha`, tool `search`, and plain `search` is not found. -/
theorem callTool_name_routing :
    (∀ names : List GoStr, names.contains "alpha".toList = true →
      routeToolCall names "mcp_alpha_search".toList =
        RouteResult.routed "alpha".toList "search".toList)
    ∧ (∀ names : List GoStr,
        routeToolCall names "search".toList = RouteResult.notFound)
    ∧ (∀ (names : List GoStr) (s : GoStr), hasPrefixGo s "mcp_".toList = false →
        routeToolCall names s = RouteResult.notFound)
    ∧ (∀ (names : List GoStr) (s : GoStr), indexOf (s.drop 4) "_".toList = -1 →
        routeToolCall names s = RouteResult.notFound)
    ∧ (∀ (names : List GoStr) (srv tool : GoStr), ('_' : Char) ∉ srv →
        routeToolCall names ("mcp_".toList ++ srv ++ '_' :: tool) =
          if names.contains srv then RouteResult.routed srv tool
          else RouteResult.notFound) := by
  refine ⟨?_, ?_, route_no_marker, route_no_separator, route_structured⟩
  · intro names hmem
    have hdec : ("mcp_alpha_search".toList : GoStr)
        = "mcp_".toList ++ "alpha".toList ++ '_' :: "search".toList := by decide
    rw [hdec, route_structured names _ _ (by decide), hmem]
    simp
  · intro names
    exact route_no_marker names _ (by decide)

/-- Witness for C4 at a concrete manager. -/
theorem callTool_name_routing_witness :
    ([("alpha".toList : GoStr)].contains "alpha".toList = true)
    ∧ routeToolCall ["alpha".toList] "mcp_alpha_search".toList =
        RouteResult.routed "alpha".toList "search".toList :=
  ⟨by decide, callTool_name_routing.1 ["alpha".toList] (by decide)⟩

/-- Embeds the MCPServer configuration record (mcp.go:20-28). -/
structure MCPServer where
  name : GoStr
  command : GoStr
  args : List GoStr
  url : GoStr
  headers : List (GoStr × GoStr)
  env : List (GoStr × GoStr)
  timeout : Int
deriving DecidableEq

/-- Result of the transport-selection branching of MCPSession.Connect. -/
inductive ConnectDecision
  | stdio
  | websocket
  | http
  | configError
deriving DecidableEq

/-- Embeds the transport selection of MCPSession.Connect (mcp.go:54-73):
a non-empty command selects the stdio (Process) transport; otherwise a
non-empty URL selects WebSocket when its scheme starts with ws:// or
wss:// (via strings.HasPrefix) and HTTP otherwise; with neither field
set, Connect returns the configuration error of line 72. -/
def connectDecision (srv : MCPServer) : ConnectDecision :=
  if srv.command ≠ [] then ConnectDecision.stdio
  else if srv.url ≠ [] then
    if strStartsWith srv.url "ws://".toList || strStartsWith srv.url "wss://".toList then
      ConnectDecision.websocket
    else ConnectDecision.http
  else ConnectDecision.configError

/-- A descriptor populating both the launch spec and the network address. -/
def bothFieldsServer : MCPServer :=
  ⟨"x".toList, "some-tool".toList, [], "http://example".toList, [], [], 30⟩

/-- Counterexample to C7: on a descriptor carrying both command and URL,
Connect does not fail with a configuration error — the command field
silently wins and the Process transport is selected. -/
theorem connect_both_fields_no_error :
    bothFieldsServer.command ≠ [] ∧ bothFieldsServer.url ≠ []
    ∧ connectDecision bothFieldsServer = ConnectDecision.stdio
    ∧ connectDecision bothFieldsServer ≠ ConnectDecision.configError := by
  decide

/-- C7 (amended): Connect fails with a configuration error exactly when
the descriptor has neither command nor URL; a present command always
selects the Process transport (even when a URL is also present), and
with only a URL the ws:///wss:// schemes select Socket and any other
scheme selects RequestResponse. -/
theorem connect_transport_selection (srv : MCPServer) :
    (connectDecision srv = ConnectDecision.configError ↔
      (srv.command = [] ∧ srv.url = []))
    ∧ (srv.command ≠ [] → connectDecision srv = ConnectDecision.stdio)
    ∧ (srv.command = [] → srv.url ≠ [] →
        ((strStartsWith srv.url "ws://".toList
            || strStartsWith srv.url "wss://".toList) = true →
          connectDecision srv = ConnectDecision.websocket)
        ∧ ((strStartsWith srv.url "ws://".toList
            || strStartsWith srv.url "wss://".toList) = false →
          connectDecision srv = ConnectDecision.http)) := by
  have of_cmd : srv.command ≠ [] → connectDecision srv = ConnectDecision.stdio := by
    intro h
    unfold connectDecision
    rw [if_pos h]
  have of_url : srv.command = [] → srv.url ≠ [] →
      connectDecision srv =
        (if strStartsWith srv.url "ws://".toList
            || strStartsWith srv.url "wss://".toList then
          ConnectDecision.websocket
        else ConnectDecision.http) := by
    intro hc hu
    unfold connectDecision
    rw [if_neg (by simp [hc]), if_pos hu]
  have of_none : srv.command = [] → srv.url = [] →
      connectDecision srv = ConnectDecision.configError := by
    intro hc hu
    unfold connectDecision
    rw [if_neg (by simp [hc]), if_neg (by simp [hu])]
  refine ⟨⟨?_, fun hb => of_none hb.1 hb.2⟩, of_cmd, ?_⟩
  · intro hcd
    by_cases hc : srv.command = []
    · by_cases hu : srv.url = []
      · exact ⟨hc, hu⟩
      · rw [of_url hc hu] at hcd
        rcases hb : (strStartsWith srv.url "ws://".toList
            || strStartsWith srv.url "wss://".toList) <;>
          rw [hb] at hcd <;> simp at hcd
    · rw [of_cmd hc] at hcd
      cases hcd
  · intro hc hu
    constructor
    · intro hws
      rw [of_url hc hu, if_pos hws]
    · intro hws
      rw [of_url hc hu, if_neg (by rw [hws]; exact Bool.false_ne_true)]

/-- A websocket descriptor used to witness C7. -/
def wsServer : MCPServer :=
  ⟨"w".toList, [], [], "ws://h".toList, [], [], 30⟩

/-- Witness for C7 at a concrete descriptor. -/
theorem connect_transport_selection_witness :
    (wsServer.command = [] ∧ wsServer.url ≠ []
      ∧ (strStartsWith wsServer.url "ws://".toList
          || strStartsWith wsServer.url "wss://".toList) = true)
    ∧ connectDecision wsServer = ConnectDecision.websocket :=
  ⟨by decide,
    ((connect_transport_selection wsServer).2.2 (by decide) (by decide)).1 (by decide)⟩

/-- An inbound JSON-RPC payload as the dispatch loop sees it after
decoding: the parsed numeric id (`none` when the id field is absent or
not a number, mcp.go:132-137) and the identity of the raw bytes that
would be handed to the waiting channel. -/
structure Msg where
  msgId : Option Int
  body : Nat
deriving DecidableEq

/-- One inbound frame: a line of standard output (readStdioResponses) or
one WebSocket message (readWebSocketResponses); `malformed` stands for a
frame rejected by json.Unmarshal, which is logged and skipped. -/
inductive Frame
  | malformed
  | ok (m : Msg)
deriving DecidableEq

/-- The session's pending-request map `activeRequests` (id to response
channel), modelled as an association list whose values identify the
per-call channels.  Every mutation in the code happens under the session
mutex, so a concurrent execution is a sequence of atomic steps on it. -/
abbrev Pending := List (Int × Nat)

/-- Embeds Go's `delete(ms.activeRequests, id)`. -/
def removeId (k : Int) (p : Pending) : Pending :=
  p.filter (fun e => e.1 != k)

def keysOf (p : Pending) : List Int :=
  p.map Prod.fst

def frameId : Frame → Option Int
  | .malformed => none
  | .ok m => m.msgId

/-- Embeds one iteration of the dispatch loops readStdioResponses
(mcp.go:120-147) and readWebSocketResponses (mcp.go:173-203), which
perform the same correlation: decode the frame and skip it when
malformed or without a numeric id; otherwise, under the lock, deliver
the raw payload to the channel registered under that id and delete the
entry, or drop the payload when no entry matches. -/
def dispatchStep (p : Pending) (f : Frame) : Pending × Option (Nat × Msg) :=
  match f with
  | .malformed => (p, none)
  | .ok m =>
      match m.msgId with
      | none => (p, none)
      | some k =>
          match List.lookup k p with
          | some ch => (removeId k p, some (ch, m))
          | none => (p, none)

/-- Runs the dispatch loop over a whole arrival sequence, collecting the
(channel, payload) deliveries in order. -/
def dispatchRun (p : Pending) : List Frame → Pending × List (Nat × Msg)
  | [] => (p, [])
  | f :: fs =>
      ((dispatchRun (dispatchStep p f).1 fs).1,
        (dispatchStep p f).2.toList ++ (dispatchRun (dispatchStep p f).1 fs).2)

theorem lookup_removeId_self (k : Int) (p : Pending) :
    List.lookup k (removeId k p) = none := by
  induction p with
  | nil => rfl
  | cons e t ih =>
      rcases e with ⟨j, v⟩
      by_cases hj : j = k
      · subst hj
        simpa [removeId, List.filter_cons] using ih
      · have h1 : (j != k) = true := bne_iff_ne.mpr hj
        have h2 : (k == j) = false := beq_eq_false_iff_ne.mpr (Ne.symm hj)
        simp only [removeId, List.filter_cons, h1, if_true, List.lookup, h2]
        simpa [removeId] using ih

theorem lookup_removeId_ne {j k : Int} (h : j ≠ k) (p : Pending) :
    List.lookup j (removeId k p) = List.lookup j p := by
  induction p with
  | nil => rfl
  | cons e t ih =>
      rcases e with ⟨i, v⟩
      by_cases hik : i = k
      · subst hik
        have h1 : (i != i) = false := by simp
        have h2 : (j == i) = false := beq_eq_false_iff_ne.mpr h
        simp only [removeId, List.filter_cons, h1, if_false, List.lookup, h2]
        simpa [removeId] using ih
      · have h1 : (i != k) = true := bne_iff_ne.mpr hik
        by_cases hji : j = i
        · subst hji
          simp only [removeId, List.filter_cons, h1, if_true, List.lookup, beq_self_eq_true]
        · have h2 : (j == i) = false := beq_eq_false_iff_ne.mpr hji
          simp only [removeId, List.filter_cons, h1, if_true, List.lookup, h2]
          simpa [removeId] using ih

theorem mem_removeId {e : Int × Nat} {k : Int} {p : Pending} :
    e ∈ removeId k p ↔ e ∈ p ∧ e.1 ≠ k := by
  simp [removeId, List.mem_filter]

theorem lookup_mem {k : Int} {v : Nat} : ∀ {p : Pending},
    List.lookup k p = some v → (k, v) ∈ p
  | [], h => by cases h
  | (j, w) :: t, h => by
      by_cases hj : k = j
      · subst hj
        simp only [List.lookup, beq_self_eq_true] at h
        cases h
        exact List.mem_cons_self _ _
      · have h2 : (k == j) = false := beq_eq_false_iff_ne.mpr hj
        simp only [List.lookup, h2] at h
        exact List.mem_cons_of_mem _ (lookup_mem h)

theorem lookup_eq_none_iff {k : Int} {p : Pending} :
    List.lookup k p = none ↔ ∀ e ∈ p, e.1 ≠ k := by
  induction p with
  | nil => simp
  | cons e t ih =>
      rcases e with ⟨j, v⟩
      by_cases hj : k = j
      · subst hj
        simp [List.lookup]
      · have h2 : (k == j) = false := beq_eq_false_iff_ne.mpr hj
        simp only [List.lookup, h2, List.mem_cons]
        rw [ih]
        constructor
        · rintro hall e (rfl | he)
          · exact Ne.symm hj
          · exact hall e he
        · intro hall e he
          exact hall e (Or.inr he)

theorem lookup_eq_of_mem_nodup {k : Int} {v : Nat} : ∀ {p : Pending},
    (p.map Prod.fst).Nodup → (k, v) ∈ p → List.lookup k p = some v
  | [], _, hm => by cases hm
  | (j, w) :: t, hnd, hm => by
      rcases List.mem_cons.mp hm with he | ht
      · cases he
        simp [List.lookup]
      · have hj : k ≠ j := by
          intro he
          subst he
          have : k ∈ t.map Prod.fst := List.mem_map.mpr ⟨(k, v), ht, rfl⟩
          simp only [List.map_cons, List.nodup_cons] at hnd
          exact hnd.1 this
        have h2 : (k == j) = false := beq_eq_false_iff_ne.mpr hj
        simp only [List.lookup, h2]
        exact lookup_eq_of_mem_nodup (by simpa using (List.nodup_cons.mp (by simpa using hnd)).2) ht

theorem dispatchRun_characterization (frames : List Frame) (p : Pending)
    (hf : (frames.filterMap frameId).Nodup) :
    dispatchRun p frames =
      (p.filter (fun e => decide (e.1 ∉ frames.filterMap frameId)),
       frames.filterMap (fun f => (dispatchStep p f).2)) := by
  induction frames generalizing p with
  | nil => simp [dispatchRun]
  | cons f fs ih =>
      cases f with
      | malformed =>
          have hf' : (fs.filterMap frameId).Nodup := by
            simpa [List.filterMap_cons, frameId] using hf
          have hstep : dispatchStep p Frame.malformed = (p, none) := rfl
          simp only [dispatchRun, hstep, ih p hf', List.filterMap_cons, frameId,
            Option.toList_none, List.nil_append]
      | ok m =>
          cases hmid : m.msgId with
          | none =>
              have hids : (Frame.ok m :: fs).filterMap frameId = fs.filterMap frameId := by
                simp [List.filterMap_cons, frameId, hmid]
              rw [hids] at hf
              have hstep : dispatchStep p (Frame.ok m) = (p, none) := by
                simp [dispatchStep, hmid]
              simp only [dispatchRun, hstep, ih p hf, hids, List.filterMap_cons, hmid,
                dispatchStep, Option.toList_none, List.nil_append]
          | some k =>
              have hids : (Frame.ok m :: fs).filterMap frameId
                  = k :: fs.filterMap frameId := by
                simp [List.filterMap_cons, frameId, hmid]
              rw [hids] at hf
              have hk_not : k ∉ fs.filterMap frameId := (List.nodup_cons.mp hf).1
              have hf' : (fs.filterMap frameId).Nodup := (List.nodup_cons.mp hf).2
              cases hlk : List.lookup k p with
              | none =>
                  have hstep : dispatchStep p (Frame.ok m) = (p, none) := by
                    simp [dispatchStep, hmid, hlk]
                  have hpend : p.filter
                        (fun e => decide (e.1 ∉ fs.filterMap frameId))
                      = p.filter
                        (fun e => decide (e.1 ∉ k :: fs.filterMap frameId)) := by
                    apply List.filter_congr
                    intro e he
                    have hne : e.1 ≠ k := lookup_eq_none_iff.mp hlk e he
                    simp [List.mem_cons, hne]
                  simp only [dispatchRun, hstep, ih p hf', hids, List.filterMap_cons,
                    Option.toList_none, List.nil_append, hpend, hstep]
              | some ch =>
                  have hstep : dispatchStep p (Frame.ok m) = (removeId k p, some (ch, m)) := by
                    simp [dispatchStep, hmid, hlk]
                  have hpend : (removeId k p).filter
                        (fun e => decide (e.1 ∉ fs.filterMap frameId))
                      = p.filter
                        (fun e => decide (e.1 ∉ k :: fs.filterMap frameId)) := by
                    unfold removeId
                    rw [List.filter_filter]
                    apply List.filter_congr
                    intro e he
                    by_cases h1 : e.1 = k
                    · simp [List.mem_cons, h1]
                    · simp [List.mem_cons, h1]
                  have hdeliv : fs.filterMap (fun f => (dispatchStep (removeId k p) f).2)
                      = fs.filterMap (fun f => (dispatchStep p f).2) := by
                    apply List.filterMap_congr
                    intro f' hmem
                    cases f' with
                    | malformed => rfl
                    | ok m' =>
                        cases hmid' : m'.msgId with
                        | none => simp [dispatchStep, hmid']
                        | some j =>
                            have hj : j ≠ k := by
                              intro he
                              subst he
                              exact hk_not (List.mem_filterMap.mpr
                                ⟨Frame.ok m', hmem, by simp [frameId, hmid']⟩)
                            simp only [dispatchStep, hmid', lookup_removeId_ne hj]
                            cases List.lookup j p <;> rfl
                  simp only [dispatchRun, hstep, ih (removeId k p) hf', hids,
                    List.filterMap_cons, Option.toList_some, List.singleton_append,
                    hpend, hdeliv, hstep]

theorem step_delivery_inv {p : Pending} {f : Frame} {ch : Nat} {m : Msg}
    (h : (dispatchStep p f).2 = some (ch, m)) :
    f = Frame.ok m ∧ ∃ k, m.msgId = some k ∧ List.lookup k p = some ch := by
  cases f with
  | malformed => simp [dispatchStep] at h
  | ok m' =>
      cases hmid : m'.msgId with
      | none => simp [dispatchStep, hmid] at h
      | some k =>
          cases hlk : List.lookup k p with
          | none => simp [dispatchStep, hmid, hlk] at h
          | some ch' =>
              simp only [dispatchStep, hmid, hlk, Option.some.injEq,
                Prod.mk.injEq] at h
              obtain ⟨rfl, rfl⟩ := h
              exact ⟨rfl, k, hmid, hlk⟩

theorem step_delivery_fwd {p : Pending} {k : Int} {ch : Nat} {m : Msg}
    (hmid : m.msgId = some k) (hlk : List.lookup k p = some ch) :
    (dispatchStep p (Frame.ok m)).2 = some (ch, m) := by
  simp [dispatchStep, hmid, hlk]

/-- C1: on one ready Process/Socket session with concurrent calls
outstanding — a pending map with distinct ids and distinct channels —
and any arrival sequence carrying at most one response per id, the
dispatch routine delivers each inbound payload carrying id k only to
the entry registered under k and removes that entry, so each caller
receives exactly the response bearing its own id regardless of arrival
order; a payload whose id matches no pending entry is dropped. -/
theorem dispatch_delivers_by_id (p : Pending) (frames : List Frame)
    (hk : (p.map Prod.fst).Nodup)
    (hs : (p.map Prod.snd).Nodup)
    (hf : (frames.filterMap frameId).Nodup) :
    ((dispatchRun p frames).2 = frames.filterMap (fun f => (dispatchStep p f).2))
    ∧ (∀ ch m, (ch, m) ∈ (dispatchRun p frames).2 →
        ∃ k, m.msgId = some k ∧ (k, ch) ∈ p)
    ∧ (∀ k ch m, (k, ch) ∈ p → (ch, m) ∈ (dispatchRun p frames).2 →
        m.msgId = some k)
    ∧ (∀ k ch m, (k, ch) ∈ p → Frame.ok m ∈ frames → m.msgId = some k →
        (ch, m) ∈ (dispatchRun p frames).2 ∧ k ∉ keysOf (dispatchRun p frames).1)
    ∧ (∀ m k, m.msgId = some k → List.lookup k p = none →
        ∀ ch, (ch, m) ∉ (dispatchRun p frames).2)
    ∧ (∀ frames2, frames.Perm frames2 →
        ((dispatchRun p frames).2).Perm ((dispatchRun p frames2).2)) := by
  have hchar := dispatchRun_characterization frames p hf
  have h1 : (dispatchRun p frames).1
      = p.filter (fun e => decide (e.1 ∉ frames.filterMap frameId)) := by
    rw [hchar]
  have h2 : (dispatchRun p frames).2
      = frames.filterMap (fun f => (dispatchStep p f).2) := by
    rw [hchar]
  have hrecv : ∀ ch m, (ch, m) ∈ (dispatchRun p frames).2 →
      ∃ k, m.msgId = some k ∧ (k, ch) ∈ p := by
    intro ch m hm
    rw [h2] at hm
    obtain ⟨f, hfmem, hsome⟩ := List.mem_filterMap.mp hm
    obtain ⟨rfl, k, hmid, hlk⟩ := step_delivery_inv hsome
    exact ⟨k, hmid, lookup_mem hlk⟩
  refine ⟨h2, hrecv, ?_, ?_, ?_, ?_⟩
  · intro k ch m hmem hm
    obtain ⟨k', hmid', hmem'⟩ := hrecv ch m hm
    have heq : ((k, ch) : Int × Nat) = (k', ch) :=
      List.inj_on_of_nodup_map hs hmem hmem' rfl
    have hkk : k = k' := congrArg Prod.fst heq
    rw [hmid', ← hkk]
  · intro k ch m hmem hfr hmid
    constructor
    · rw [h2]
      exact List.mem_filterMap.mpr
        ⟨Frame.ok m, hfr, step_delivery_fwd hmid (lookup_eq_of_mem_nodup hk hmem)⟩
    · rw [h1]
      intro hkin
      obtain ⟨e, he, hefst⟩ := List.mem_map.mp hkin
      have hnot := (List.mem_filter.mp he).2
      rw [decide_eq_true_eq] at hnot
      apply hnot
      rw [hefst]
      exact List.mem_filterMap.mpr ⟨Frame.ok m, hfr, by simp [frameId, hmid]⟩
  · intro m k hmid hnone ch hm
    obtain ⟨k', hmid', hmem'⟩ := hrecv ch m hm
    rw [hmid] at hmid'
    cases hmid'
    rw [lookup_eq_none_iff] at hnone
    exact hnone _ hmem' rfl
  · intro frames2 hperm
    have hf2 : (frames2.filterMap frameId).Nodup :=
      ((hperm.filterMap frameId).nodup_iff).mp hf
    rw [h2,
      show (dispatchRun p frames2).2
          = frames2.filterMap (fun f => (dispatchStep p f).2) from by
        rw [dispatchRun_characterization frames2 p hf2]]
    exact hperm.filterMap _

/-- Witness for C1: two pending calls, responses arriving out of order
with a malformed frame and a stray id interleaved. -/
theorem dispatch_delivers_by_id_witness :
    (([((1 : Int), (10 : Nat)), (2, 20)].map Prod.fst).Nodup
      ∧ ([((1 : Int), (10 : Nat)), (2, 20)].map Prod.snd).Nodup
      ∧ ([Frame.ok ⟨some 2, 201⟩, Frame.malformed, Frame.ok ⟨some 9, 300⟩,
          Frame.ok ⟨some 1, 101⟩].filterMap frameId).Nodup)
    ∧ (dispatchRun [((1 : Int), (10 : Nat)), (2, 20)]
        [Frame.ok ⟨some 2, 201⟩, Frame.malformed, Frame.ok ⟨some 9, 300⟩,
          Frame.ok ⟨some 1, 101⟩]).2
      = [Frame.ok ⟨some 2, 201⟩, Frame.malformed, Frame.ok ⟨some 9, 300⟩,
          Frame.ok ⟨some 1, 101⟩].filterMap
          (fun f => (dispatchStep [((1 : Int), (10 : Nat)), (2, 20)] f).2) :=
  ⟨⟨by decide, by decide, by decide⟩,
    (dispatch_delivers_by_id _ _ (by decide) (by decide) (by decide)).1⟩

/-- One serialised action on the pending map: either the dispatch loop
handles an inbound frame, or a timed-out caller evicts its own entry
(the ctx.Done branch of sendRequest, mcp.go:264-268).  Both paths
acquire the same session mutex, so a concurrent execution is a list of
these events. -/
inductive Event
  | inbound (f : Frame)
  | timeoutEvict (k : Int)
deriving DecidableEq

def eventStep (p : Pending) : Event → Pending
  | .inbound f => (dispatchStep p f).1
  | .timeoutEvict k => removeId k p

/-- An event removes the entry registered under `k` when `k` is a
pending key before the event and not after it. -/
def removesEntry (p : Pending) (e : Event) (k : Int) : Bool :=
  decide (k ∈ keysOf p) && decide (k ∉ keysOf (eventStep p e))

/-- Number of events along a serialised run that remove the entry
registered under `k`. -/
def countRemovals (k : Int) : Pending → List Event → Nat
  | _, [] => 0
  | p, e :: es =>
      (if removesEntry p e k then 1 else 0) + countRemovals k (eventStep p e) es

theorem keys_removeId_subset {j k : Int} {p : Pending}
    (h : j ∈ keysOf (removeId k p)) : j ∈ keysOf p := by
  obtain ⟨e, he, rfl⟩ := List.mem_map.mp h
  exact List.mem_map.mpr ⟨e, (mem_removeId.mp he).1, rfl⟩

theorem not_mem_keys_removeId_self {k : Int} {p : Pending} :
    k ∉ keysOf (removeId k p) := by
  intro h
  obtain ⟨e, he, hfst⟩ := List.mem_map.mp h
  exact (mem_removeId.mp he).2 hfst

theorem keys_eventStep_subset {j : Int} {p : Pending} {e : Event}
    (h : j ∈ keysOf (eventStep p e)) : j ∈ keysOf p := by
  cases e with
  | timeoutEvict k => exact keys_removeId_subset h
  | inbound f =>
      cases f with
      | malformed => exact h
      | ok m =>
          cases hmid : m.msgId with
          | none => simpa [eventStep, dispatchStep, hmid] using h
          | some k =>
              cases hlk : List.lookup k p with
              | none => simpa [eventStep, dispatchStep, hmid, hlk] using h
              | some ch =>
                  have hstep : eventStep p (Event.inbound (Frame.ok m))
                      = removeId k p := by
                    simp [eventStep, dispatchStep, hmid, hlk]
                  rw [hstep] at h
                  exact keys_removeId_subset h

theorem countRemovals_of_not_mem {k : Int} : ∀ (es : List Event) (p : Pending),
    k ∉ keysOf p → countRemovals k p es = 0
  | [], _, _ => rfl
  | e :: es, p, h => by
      have h1 : removesEntry p e k = false := by
        unfold removesEntry
        simp [h]
      have h2 : k ∉ keysOf (eventStep p e) := fun hm => h (keys_eventStep_subset hm)
      simp [countRemovals, h1, countRemovals_of_not_mem es _ h2]

theorem countRemovals_le_one {k : Int} : ∀ (es : List Event) (p : Pending),
    countRemovals k p es ≤ 1
  | [], _ => by simp [countRemovals]
  | e :: es, p => by
      cases hrem : removesEntry p e k
      · simpa [countRemovals, hrem] using countRemovals_le_one es (eventStep p e)
      · have h2 : k ∉ keysOf (eventStep p e) := by
          have := (Bool.and_eq_true _ _).mp hrem
          exact of_decide_eq_true this.2
        simp [countRemovals, hrem, countRemovals_of_not_mem es _ h2]

/-- Result of one sendRequest call as seen by its caller. -/
inductive CallResult
  | ok (m : Msg)
  | sendError
  | timeoutError
deriving DecidableEq

/-- The session state sendRequest touches under the lock: the request-id
counter and the pending map (mcp.go:48-50). -/
structure SessionCore where
  reqID : Int
  pending : Pending
deriving DecidableEq

/-- Embeds the ctx.Done branch of sendRequest (mcp.go:264-268): under
the lock, delete the pending entry (a no-op when already gone) and fail
the call with the timeout error. -/
def timeoutEvictCall (st : SessionCore) (k : Int) : SessionCore × CallResult :=
  (⟨st.reqID, removeId k st.pending⟩, CallResult.timeoutError)

/-- C2: a call whose deadline elapses with no matching response fails
with TimeoutError and its pending entry is removed from the mapping; a
later delivery bearing that id is a no-op that resolves no caller; and
along any serialised run of dispatch and timeout events, at most one of
response delivery and timeout eviction removes the entry. -/
theorem timeout_eviction_exclusive (st : SessionCore) (k : Int) (ch : Nat)
    (_hmem : (k, ch) ∈ st.pending) :
    ((timeoutEvictCall st k).2 = CallResult.timeoutError)
    ∧ (k ∉ keysOf (timeoutEvictCall st k).1.pending)
    ∧ (∀ m : Msg, m.msgId = some k →
        dispatchStep (timeoutEvictCall st k).1.pending (Frame.ok m)
          = ((timeoutEvictCall st k).1.pending, none))
    ∧ (∀ es : List Event, countRemovals k st.pending es ≤ 1) := by
  refine ⟨rfl, not_mem_keys_removeId_self, ?_, fun es => countRemovals_le_one es _⟩
  intro m hmid
  show dispatchStep (removeId k st.pending) (Frame.ok m)
      = (removeId k st.pending, none)
  simp [dispatchStep, hmid, lookup_removeId_self]

/-- Witness for C2 at a concrete session. -/
theorem timeout_eviction_exclusive_witness :
    (((1 : Int), (10 : Nat)) ∈ ([((1 : Int), (10 : Nat))] : Pending))
    ∧ (1 : Int) ∉ keysOf (timeoutEvictCall ⟨2, [((1 : Int), (10 : Nat))]⟩ 1).1.pending :=
  ⟨by decide, (timeout_eviction_exclusive ⟨2, [(1, 10)]⟩ 1 10 (by decide)).2.1⟩

/-- Two's-complement wrap of a 64-bit Go int. -/
def wrap64 (n : Int) : Int :=
  (n + 9223372036854775808) % 18446744073709551616 - 9223372036854775808

/-- Embeds the registration half of sendRequest (mcp.go:221-235): under
the lock increment the id counter (a 64-bit Go int, hence the wrap),
take the new value as the request id, create the buffered response
channel `ch` and insert it into the pending map. -/
def registerRequest (st : SessionCore) (ch : Nat) : SessionCore × Int :=
  (⟨wrap64 (st.reqID + 1), (wrap64 (st.reqID + 1), ch) :: st.pending⟩,
    wrap64 (st.reqID + 1))

/-- A sequence of request registrations on one session, returning the
ids handed out in order. -/
def runRegisters (st : SessionCore) : List Nat → SessionCore × List Int
  | [] => (st, [])
  | ch :: rest =>
      ((runRegisters (registerRequest st ch).1 rest).1,
        (registerRequest st ch).2 :: (runRegisters (registerRequest st ch).1 rest).2)

/-- Embeds sendRequest when handing the encoded request to the transport
fails (mcp.go:250-255): the just-registered entry is deleted under the
lock and the transport error is returned at once, without waiting for
the timeout. -/
def sendRequestSendFail (st : SessionCore) (ch : Nat) : SessionCore × CallResult :=
  (⟨(registerRequest st ch).1.reqID,
      removeId (registerRequest st ch).2 (registerRequest st ch).1.pending⟩,
    CallResult.sendError)

/-- Embeds a complete call on the HTTP (RequestResponse) transport
(sendRequest mcp.go:220-270 together with sendHTTPRequest
mcp.go:292-328): register the id, perform the one synchronous round
trip; a reply body that fails to decode surfaces as a send error (the
entry is deleted); a decoded reply is pushed into the caller's own
channel and returned as is — without consulting the pending map and
without deleting the registered entry. -/
def httpCallModel (st : SessionCore) (ch : Nat) (reply : Option Msg) :
    SessionCore × CallResult :=
  match reply with
  | none => sendRequestSendFail st ch
  | some m => ((registerRequest st ch).1, CallResult.ok m)

theorem wrap64_add_left (a b : Int) : wrap64 (wrap64 a + b) = wrap64 (a + b) := by
  unfold wrap64
  omega

theorem runRegisters_ids (chs : List Nat) : ∀ st : SessionCore,
    (runRegisters st chs).2
      = (List.range chs.length).map (fun i => wrap64 (st.reqID + Int.ofNat i + 1)) := by
  induction chs with
  | nil => intro st; simp [runRegisters]
  | cons c rest ih =>
      intro st
      simp only [runRegisters, List.length_cons, List.range_succ_eq_map,
        List.map_cons, List.map_map]
      congr 1
      · show wrap64 (st.reqID + 1) = wrap64 (st.reqID + Int.ofNat 0 + 1)
        norm_num
      · rw [ih]
        show (List.range rest.length).map
            (fun i => wrap64 ((registerRequest st c).1.reqID + Int.ofNat i + 1))
          = (List.range rest.length).map
            ((fun i : Nat => wrap64 (st.reqID + Int.ofNat i + 1)) ∘ Nat.succ)
        have hfun : (fun i : Nat => wrap64 ((registerRequest st c).1.reqID + Int.ofNat i + 1))
            = ((fun i : Nat => wrap64 (st.reqID + Int.ofNat i + 1)) ∘ Nat.succ) := by
          funext i
          show wrap64 (wrap64 (st.reqID + 1) + Int.ofNat i + 1)
            = wrap64 (st.reqID + Int.ofNat (i + 1) + 1)
          rw [add_assoc, wrap64_add_left]
          congr 1
          simp only [Int.ofNat_eq_natCast]
          push_cast
          ring
        rw [hfun]

theorem runRegisters_ids_nodup (st : SessionCore) (chs : List Nat)
    (hlen : chs.length ≤ 18446744073709551616) :
    ((runRegisters st chs).2).Nodup := by
  rw [runRegisters_ids]
  apply List.Nodup.map_on ?_ (List.nodup_range _)
  intro i hi j hj hij
  simp only [List.mem_range] at hi hj
  unfold wrap64 at hij
  simp only [Int.ofNat_eq_natCast] at hij
  omega

/-- C9: on every transport, when handing the encoded request to the
transport fails, sendRequest removes the entry it had just registered
before returning the error: for any reachable session state (one whose
pending keys do not already contain the fresh id), the pending map
afterwards equals the map before the call, and the caller gets the send
error rather than waiting for the timeout. -/
theorem send_failure_restores_pending (st : SessionCore) (ch : Nat)
    (hfresh : wrap64 (st.reqID + 1) ∉ keysOf st.pending) :
    (sendRequestSendFail st ch).1.pending = st.pending
    ∧ (sendRequestSendFail st ch).2 = CallResult.sendError := by
  refine ⟨?_, rfl⟩
  show removeId (wrap64 (st.reqID + 1))
      ((wrap64 (st.reqID + 1), ch) :: st.pending) = st.pending
  unfold removeId
  rw [List.filter_cons]
  simp only [bne_self_eq_false, Bool.false_eq_true, if_false]
  apply List.filter_eq_self.mpr
  intro e he
  refine bne_iff_ne.mpr ?_
  intro h
  exact hfresh (List.mem_map.mpr ⟨e, he, h⟩)

/-- Witness for C9 on a fresh session. -/
theorem send_failure_restores_pending_witness :
    (wrap64 (0 + 1) ∉ keysOf ([] : Pending))
    ∧ (sendRequestSendFail ⟨0, []⟩ 5).1.pending = ([] : Pending) :=
  ⟨by decide, (send_failure_restores_pending ⟨0, []⟩ 5 (by decide)).1⟩

/-- C8: on the RequestResponse (HTTP) transport every call is one
synchronous round trip: the single decoded reply body resolves the
waiting caller directly — whatever id it carries and whatever the
pending table holds, so the reply never goes through the pending-id
dispatch path — and no pending entry of any other call is consumed. -/
theorem http_single_round_trip (st : SessionCore) (ch : Nat) (m : Msg) :
    ((httpCallModel st ch (some m)).2 = CallResult.ok m)
    ∧ (∀ e, e ∈ st.pending → e ∈ (httpCallModel st ch (some m)).1.pending)
    ∧ (∀ p q : Pending,
        (httpCallModel ⟨st.reqID, p⟩ ch (some m)).2
          = (httpCallModel ⟨st.reqID, q⟩ ch (some m)).2) := by
  refine ⟨rfl, ?_, fun p q => rfl⟩
  intro e he
  exact List.mem_cons_of_mem _ he

/-- Witness for C8 at a concrete session and reply. -/
theorem http_single_round_trip_witness :
    (((2 : Int), (7 : Nat)) ∈ ([((2 : Int), (7 : Nat))] : Pending))
    ∧ ((2 : Int), (7 : Nat))
        ∈ (httpCallModel ⟨0, [((2 : Int), (7 : Nat))]⟩ 9 (some ⟨some 5, 42⟩)).1.pending :=
  ⟨by decide,
    (http_single_round_trip ⟨0, [(2, 7)]⟩ 9 ⟨some 5, 42⟩).2.1 _ (by decide)⟩

/-- Counterexample to C5: on the HTTP transport a successful call — here
the first call on a fresh session, registered under id 1 — resolves the
caller yet leaves its pending entry in the mapping: neither a matching
response nor timeout eviction ever removes it. -/
theorem http_pending_entry_leak :
    ((httpCallModel ⟨0, []⟩ 7 (some ⟨some 1, 42⟩)).2 = CallResult.ok ⟨some 1, 42⟩)
    ∧ ((httpCallModel ⟨0, []⟩ 7 (some ⟨some 1, 42⟩)).1.pending
        = [((1 : Int), (7 : Nat))]) := by
  decide

/-- C5 (amended): request ids are assigned under the session's lock by
the incrementing (64-bit wrapped) counter, so the ids handed out are
the consecutive counter values and are distinct within any window of at
most 2^64 calls; on the Process/Socket transports each pending entry is
removed at most once — by a matching response or by timeout eviction,
never both, each mechanism removing the entry when it fires — while on
the RequestResponse (HTTP) transport a successful call resolves the
caller directly but leaves the registered entry in the mapping. -/
theorem id_allocation_resolution_discipline :
    (∀ (st : SessionCore) (chs : List Nat),
      (runRegisters st chs).2
        = (List.range chs.length).map (fun i => wrap64 (st.reqID + Int.ofNat i + 1)))
    ∧ (∀ (st : SessionCore) (chs : List Nat),
        chs.length ≤ 18446744073709551616 → ((runRegisters st chs).2).Nodup)
    ∧ (∀ (p : Pending) (k : Int) (es : List Event), countRemovals k p es ≤ 1)
    ∧ (∀ (p : Pending) (k : Int) (m : Msg) (ch : Nat), m.msgId = some k →
        List.lookup k p = some ch →
        dispatchStep p (Frame.ok m) = (removeId k p, some (ch, m))
          ∧ k ∉ keysOf (removeId k p))
    ∧ (∀ (p : Pending) (k : Int),
        eventStep p (Event.timeoutEvict k) = removeId k p
          ∧ k ∉ keysOf (removeId k p))
    ∧ (∀ (st : SessionCore) (ch : Nat) (m : Msg),
        (httpCallModel st ch (some m)).2 = CallResult.ok m
          ∧ (httpCallModel st ch (some m)).1.pending
            = (wrap64 (st.reqID + 1), ch) :: st.pending) := by
  refine ⟨fun st chs => runRegisters_ids chs st, runRegisters_ids_nodup,
    fun p k es => countRemovals_le_one es p, ?_, ?_, fun st ch m => ⟨rfl, rfl⟩⟩
  · intro p k m ch hmid hlk
    exact ⟨by simp [dispatchStep, hmid, hlk], not_mem_keys_removeId_self⟩
  · intro p k
    exact ⟨rfl, not_mem_keys_removeId_self⟩

/-- Witness for C5 (amended) on a fresh session issuing two calls. -/
theorem id_allocation_resolution_discipline_witness :
    (([(4 : Nat), 5].length ≤ 18446744073709551616)
      ∧ ((1 : Int), (4 : Nat)) ∈ ([((1 : Int), (4 : Nat))] : Pending))
    ∧ ((runRegisters ⟨0, []⟩ [(4 : Nat), 5]).2).Nodup :=
  ⟨⟨by decide, by decide⟩,
    id_allocation_resolution_discipline.2.1 ⟨0, []⟩ [4, 5] (by decide)⟩

/-- An MCP tool definition (mcp.go:463-467); the input schema is an
opaque structured document, identified here by a number and passed
through unmodified. -/
structure ToolDefinition where
  name : GoStr
  description : GoStr
  inputSchema : Nat
deriving DecidableEq

/-- Outcomes of one session's interactions with its external server, as
data.  `connectOk` records whether Connect succeeded — equivalently,
whether the session's `activeRequests` map was initialized, since the
`make` lines (mcp.go:111 for stdio, mcp.go:164 for WebSocket) run only
after the process start / dial succeeded; on a session whose Connect
failed the map is nil.  `initOk` records whether the Initialize
handshake succeeded.  `listToolsResult` is the outcome of the
`tools/list` RPC *when the request table exists* (`none` for an error
reply or transport failure); it is never consulted for a session whose
Connect failed, because `sendRequest` does not get past the nil-map
write on such a session. -/
structure SessionModel where
  connectOk : Bool
  initOk : Bool
  listToolsResult : Option (List ToolDefinition)
deriving DecidableEq

/-- A session is ready when both Connect and Initialize succeeded. -/
def sessionReady (s : SessionModel) : Bool :=
  s.connectOk && s.initOk

/-- What ConnectAll's loop body concludes for one session. -/
inductive AttemptResult
  | connectFailed
  | initFailed
  | ready
deriving DecidableEq

def attemptOf (s : SessionModel) : AttemptResult :=
  if !s.connectOk then AttemptResult.connectFailed
  else if !s.initOk then AttemptResult.initFailed
  else AttemptResult.ready

/-- Embeds ConnectAll (mcp.go:496-517): iterate over the manager's
mapping; a Connect failure is logged, recorded in lastErr and skipped
with continue; an Initialize failure closes the session, is recorded
and skipped; the loop never mutates the mapping (its entries were
inserted by AddServer, mcp.go:483-493, before any connection attempt),
and the last recorded error is returned.  Result: the mapping
afterwards, the attempt made for each server in order, and lastErr
identified by the name of the last failing server. -/
def connectAllModel : List (GoStr × SessionModel) →
    List (GoStr × SessionModel) × List (GoStr × AttemptResult) × Option GoStr
  | [] => ([], [], none)
  | (n, s) :: rest =>
      ((n, s) :: (connectAllModel rest).1,
        (n, attemptOf s) :: (connectAllModel rest).2.1,
        match (connectAllModel rest).2.2 with
        | some e => some e
        | none => if attemptOf s = AttemptResult.ready then none else some n)

/-- The renaming GetTools applies (mcp.go:535):
`fmt.Sprintf("mcp_%s_%s", name, tool.Name)`. -/
def renameTool (srvName : GoStr) (t : ToolDefinition) : ToolDefinition :=
  ⟨"mcp_".toList ++ srvName ++ "_".toList ++ t.name, t.description, t.inputSchema⟩

/-- Embeds GetTools (mcp.go:520-541): for every session in the mapping,
list its tools; a listing error is logged and the session skipped;
otherwise every tool is renamed and appended to the aggregate. -/
def getToolsModel : List (GoStr × SessionModel) → List ToolDefinition
  | [] => []
  | (n, s) :: rest =>
      (match s.listToolsResult with
       | none => []
       | some ts => ts.map (renameTool n)) ++ getToolsModel rest

theorem connectAllModel_mapping : ∀ m : List (GoStr × SessionModel),
    (connectAllModel m).1 = m
  | [] => rfl
  | (n, s) :: rest => by
      simp [connectAllModel, connectAllModel_mapping rest]

theorem connectAllModel_attempts : ∀ m : List (GoStr × SessionModel),
    (connectAllModel m).2.1 = m.map (fun e => (e.1, attemptOf e.2))
  | [] => rfl
  | (n, s) :: rest => by
      simp [connectAllModel, connectAllModel_attempts rest]

theorem connectAllModel_lastErr_none_iff : ∀ m : List (GoStr × SessionModel),
    ((connectAllModel m).2.2 = none ↔ ∀ e ∈ m, attemptOf e.2 = AttemptResult.ready)
  | [] => by simp [connectAllModel]
  | (n, s) :: rest => by
      have ih := connectAllModel_lastErr_none_iff rest
      simp only [connectAllModel, List.mem_cons]
      cases herr : (connectAllModel rest).2.2 with
      | some e =>
          simp only []
          constructor
          · intro h
            cases h
          · intro hall
            have : (connectAllModel rest).2.2 = none :=
              ih.mpr (fun e he => hall e (Or.inr he))
            rw [herr] at this
            cases this
      | none =>
          rw [herr] at ih
          simp only []
          by_cases hr : attemptOf s = AttemptResult.ready
          · simp only [hr, if_true]
            constructor
            · intro _ e he
              rcases he with rfl | he'
              · exact hr
              · exact (ih.mp rfl) e he'
            · intro _
              trivial
          · simp only [hr, if_false]
            constructor
            · intro h
              cases h
            · intro hall
              exact absurd (hall (n, s) (Or.inl rfl)) hr

theorem mem_getToolsModel {t : ToolDefinition} : ∀ {m : List (GoStr × SessionModel)},
    t ∈ getToolsModel m ↔
      ∃ n s ts t0, (n, s) ∈ m ∧ s.listToolsResult = some ts ∧ t0 ∈ ts
        ∧ t = renameTool n t0
  | [] => by simp [getToolsModel]
  | (n, s) :: rest => by
      rw [getToolsModel, List.mem_append, mem_getToolsModel (m := rest)]
      constructor
      · rintro (hhead | ⟨n', s', ts', t0, hm, hls, ht0, rfl⟩)
        · cases hls : s.listToolsResult with
          | none =>
              rw [hls] at hhead
              simp at hhead
          | some ts =>
              rw [hls] at hhead
              simp only [] at hhead
              obtain ⟨t0, ht0, heq⟩ := List.mem_map.mp hhead
              exact ⟨n, s, ts, t0, List.mem_cons_self _ _, hls, ht0, heq.symm⟩
        · exact ⟨n', s', ts', t0, List.mem_cons_of_mem _ hm, hls, ht0, rfl⟩
      · rintro ⟨n', s', ts', t0, hm, hls, ht0, rfl⟩
        rcases List.mem_cons.mp hm with heq | hm'
        · injection heq with h1 h2
          subst h1
          subst h2
          left
          rw [hls]
          exact List.mem_map.mpr ⟨t0, ht0, rfl⟩
        · right
          exact ⟨n', s', ts', t0, hm', hls, ht0, rfl⟩

/-- Embeds one full call of GetTools (mcp.go:520-541) over the
manager's mapping, including its failure mode.  For each session in
order, ListTools issues sendRequest, which begins with the write
`ms.activeRequests[id] = responseChan` (mcp.go:234); on a session whose
Connect failed that map is nil (mcp.go:111 and mcp.go:164 run only
after the start/dial succeed), so the write panics the process — there
is no recover anywhere in the repository — and the call returns nothing
(`none`).  On a session with an initialized table, a listing error is
logged and the session skipped; a listed catalog is renamed and
appended.  `some ts` is a normal completion returning `ts`. -/
def getToolsRun : List (GoStr × SessionModel) → Option (List ToolDefinition)
  | [] => some []
  | (n, s) :: rest =>
      if !s.connectOk then none
      else
        match s.listToolsResult with
        | none => getToolsRun rest
        | some ts => (getToolsRun rest).map (fun acc => ts.map (renameTool n) ++ acc)

theorem getToolsRun_eq_of_tables : ∀ m : List (GoStr × SessionModel),
    (∀ e ∈ m, e.2.connectOk = true) → getToolsRun m = some (getToolsModel m)
  | [], _ => rfl
  | (n, s) :: rest, h => by
      have hc : s.connectOk = true := h (n, s) (List.mem_cons_self _ _)
      have hrest := getToolsRun_eq_of_tables rest
        (fun e he => h e (List.mem_cons_of_mem _ he))
      simp only [getToolsRun, getToolsModel, hc, Bool.not_true, Bool.false_eq_true,
        if_false]
      cases hls : s.listToolsResult with
      | none => simpa using hrest
      | some ts =>
          rw [hrest]
          rfl

/-- The three-descriptor manager of C3's scenario: server `b` fails to
dial — so its request table is never initialized (`connectOk = false`)
— while the other two connect and initialize and can list one tool
each. -/
def exThree : List (GoStr × SessionModel) :=
  [("a".toList, ⟨true, true, some [⟨"t1".toList, [], 0⟩]⟩),
   ("b".toList, ⟨false, false, none⟩),
   ("c".toList, ⟨true, true, some [⟨"t2".toList, [], 0⟩]⟩)]

/-- C3 describes the intended behavior, and the code deviates from it:
over three descriptors where `b` fails to dial, ConnectAll does attempt
every descriptor and the loop itself survives, but the failed session
remains in the manager's mapping (AddServer inserted it before any
connection attempt), so the mapping does not contain only sessions that
completed connect and initialize; and a subsequent GetTools does not
return tools only from the two ready sessions — it reaches the
dial-failed session, whose request table was never initialized, and
panics on the nil-map write of sendRequest (mcp.go:234), returning no
tools at all.  Had the mapping held only the two connected sessions, as
the claim intends, GetTools would have completed with exactly their
renamed tools. -/
theorem connectAll_getTools_crash_on_failed_dial :
    ((connectAllModel exThree).2.1
        = [("a".toList, AttemptResult.ready), ("b".toList, AttemptResult.connectFailed),
           ("c".toList, AttemptResult.ready)])
    ∧ ((connectAllModel exThree).1 = exThree)
    ∧ (("b".toList, (⟨false, false, none⟩ : SessionModel)) ∈ (connectAllModel exThree).1)
    ∧ (¬ ∀ e ∈ (connectAllModel exThree).1, sessionReady e.2 = true)
    ∧ (getToolsRun exThree = none)
    ∧ (getToolsRun [("a".toList, ⟨true, true, some [⟨"t1".toList, [], 0⟩]⟩),
          ("c".toList, ⟨true, true, some [⟨"t2".toList, [], 0⟩]⟩)]
        = some [renameTool "a".toList ⟨"t1".toList, [], 0⟩,
            renameTool "c".toList ⟨"t2".toList, [], 0⟩]) := by
  decide

/-- C6: for every ready session in the manager, GetTools exposes each of
its tools renamed to mcp_<serverName>_<originalToolName> with the
description and input schema passed through unmodified, and every
exposed tool arises this way; for the server named `fs` listing a tool
named `read`, GetTools returns the tool renamed `mcp_fs_read`. -/
theorem getTools_renames_with_passthrough :
    (∀ (m : List (GoStr × SessionModel)) (n : GoStr) (s : SessionModel)
        (ts : List ToolDefinition) (t : ToolDefinition),
      (n, s) ∈ m → s.listToolsResult = some ts → t ∈ ts →
        renameTool n t ∈ getToolsModel m)
    ∧ (∀ (m : List (GoStr × SessionModel)) (t : ToolDefinition),
        t ∈ getToolsModel m →
        ∃ n s ts t0, (n, s) ∈ m ∧ s.listToolsResult = some ts ∧ t0 ∈ ts
          ∧ t = renameTool n t0
          ∧ t.description = t0.description ∧ t.inputSchema = t0.inputSchema)
    ∧ (∀ (n : GoStr) (t : ToolDefinition),
        (renameTool n t).name = "mcp_".toList ++ n ++ "_".toList ++ t.name
          ∧ (renameTool n t).description = t.description
          ∧ (renameTool n t).inputSchema = t.inputSchema)
    ∧ (∀ (d : GoStr) (sch : Nat),
        getToolsModel [("fs".toList, ⟨true, true, some [⟨"read".toList, d, sch⟩]⟩)]
          = [⟨"mcp_fs_read".toList, d, sch⟩]) := by
  refine ⟨?_, ?_, fun n t => ⟨rfl, rfl, rfl⟩, fun d sch => rfl⟩
  · intro m n s ts t hm hls ht
    exact mem_getToolsModel.mpr ⟨n, s, ts, t, hm, hls, ht, rfl⟩
  · intro m t hmem
    obtain ⟨n, s, ts, t0, hm, hls, ht0, rfl⟩ := mem_getToolsModel.mp hmem
    exact ⟨n, s, ts, t0, hm, hls, ht0, rfl, rfl, rfl⟩

/-- Witness for C6 on a one-server manager. -/
theorem getTools_renames_with_passthrough_witness :
    ((("fs".toList : GoStr), (⟨true, true, some [⟨"read".toList, [], 0⟩]⟩ : SessionModel))
        ∈ [(("fs".toList : GoStr), (⟨true, true, some [⟨"read".toList, [], 0⟩]⟩ : SessionModel))]
      ∧ (⟨true, true, some [⟨"read".toList, [], 0⟩]⟩ : SessionModel).listToolsResult
          = some [⟨"read".toList, [], 0⟩]
      ∧ (⟨"read".toList, [], 0⟩ : ToolDefinition) ∈ [(⟨"read".toList, [], 0⟩ : ToolDefinition)])
    ∧ renameTool "fs".toList ⟨"read".toList, [], 0⟩
        ∈ getToolsModel
            [("fs".toList, ⟨true, true, some [⟨"read".toList, [], 0⟩]⟩)] :=
  ⟨⟨by decide, rfl, by decide⟩,
    getTools_renames_with_passthrough.1
      [("fs".toList, ⟨true, true, some [⟨"read".toList, [], 0⟩]⟩)]
      "fs".toList ⟨true, true, some [⟨"read".toList, [], 0⟩]⟩
      [⟨"read".toList, [], 0⟩] ⟨"read".toList, [], 0⟩
      (by decide) rfl (by decide)⟩

end NanotalonMCP
